import Mathlib

/-!
Shallow embedding of `src/lapnet/hamiltonian.py` (LapNet repository).

Conventions of the embedding:

* machine reals are modelled by an arbitrary field `K` (instantiated at `ℚ`
  in concrete witnesses); the square root used by `jnp.linalg.norm` is an
  explicit function parameter `sqrt`;
* JAX PRNG keys are an opaque type `T`; the draws `jax.random.choice`,
  `jax.random.normal` and `jax.random.randint` are abstracted as explicit
  deterministic sampler functions of the key, which matches how JAX treats
  them (a fixed key fully determines the draw);
* the opaque wavefunction log-magnitude `f` enters the kinetic-energy code
  only through its derivative data at the evaluation point, so that data
  (gradient, Hessian, the jvp operator of the gradient, the
  forward-propagated gradient and laplacian) is passed as explicit
  arguments;
* `jax.experimental.jet` run with series `(v, 0)` produces, as its
  second-order output, the second directional derivative
  `v * (Hessian g) * v` (jet propagates plain higher derivatives: its
  composition rules carry the binomial factors of the chain rule for
  derivatives, as in its documentation example where the second-order
  output of a composition is `ddf(h0) * h1 ^ 2 + df(h0) * h2`);
* numpy arrays with data-dependent shapes are modelled by `Arr1` and `Arr2`
  (sizes plus an entry function), with numpy broadcasting made explicit.
-/

namespace LapNet

/-- Tags for the three kinetic-energy algorithms present in the source:
`_forward_lapl_over_f` (lines 142-146), `_randomized_lapl_over_f`
(lines 126-140) and `_lapl_over_f` (lines 148-164). -/
inductive KineticAlg where
  | forwardLap : KineticAlg
  | randomizedLap : KineticAlg
  | exactLoop : KineticAlg
deriving DecidableEq

/-- Embeds the algorithm selection done at the tail of
`local_kinetic_energy` (hamiltonian.py lines 166-170):
`if forward_laplacian: return _forward_lapl_over_f` and otherwise
`return _randomized_lapl_over_f`; the line `return _lapl_over_f` there is
commented out in the source. -/
def local_kinetic_energy_select (use_scan : Bool) (forward_laplacian : Bool) :
    KineticAlg :=
  if forward_laplacian then KineticAlg.forwardLap else KineticAlg.randomizedLap

/-- Embeds the algorithm selection of the `local_energy` factory
(hamiltonian.py lines 233-260), which forwards its `use_scan` and
`forward_laplacian` flags unchanged to `local_kinetic_energy`. -/
def local_energy_select (use_scan : Bool) (forward_laplacian : Bool) : KineticAlg :=
  local_kinetic_energy_select use_scan forward_laplacian

/-- The selection made by `local_energy` with its default flags
(`use_scan=False`, `forward_laplacian=True` in the source signature,
lines 233-240). -/
def local_energy_default_select : KineticAlg := local_energy_select false true

variable {K : Type} [Field K] {T : Type}

/-- Embeds `get_sdgd_idx_set` (hamiltonian.py lines 67-72): if
`n_sdgd_dim != 0` draw `n_sdgd_dim` indices with `jax.random.choice`
(abstracted as the deterministic function `choice` of the key), else take
`jnp.arange(dim)`. -/
def get_sdgd_idx_set (choice : T → ℕ → ℕ → List ℕ) (key : T)
    (dim n_sdgd_dim : ℕ) : List ℕ :=
  if n_sdgd_dim ≠ 0 then choice key dim n_sdgd_dim else List.range dim

/-- Row `i` of `jnp.eye(dim)` scaled by `dim`, i.e. `jnp.eye(dim)[i] * dim`
from the `"sdgd"` branch of `get_random_vec` (hamiltonian.py line 96). -/
def sdgd_vec (dim i : ℕ) : ℕ → K := fun j => if j = i then (dim : K) else 0

/-- A 1-D numpy array: a length and an entry function. -/
structure Arr1 (K : Type) where
  n : ℕ
  ent : ℕ → K

/-- A 2-D numpy array: a shape and an entry function. -/
structure Arr2 (K : Type) where
  rows : ℕ
  cols : ℕ
  ent : ℕ → ℕ → K

/-- Embeds `get_random_vec` (hamiltonian.py lines 75-99).  `normal_draw`
and `randint_draw` abstract `jax.random.normal` and
`jax.random.randint(key, shape, minval=0, maxval=2)`; `d` is the python
expression `n_sdgd_dim or dim`; the `"unit"` branch computes
`2 * (randint - 0.5)`; the `"sdgd"` branch maps `idx_set` to rows
`jnp.eye(dim)[i] * dim`; any other `method` raises `ValueError`,
modelled as `none`. -/
def get_random_vec (normal_draw : T → ℕ → ℕ → ℕ → ℕ → K)
    (randint_draw : T → ℕ → ℕ → ℕ → ℕ → ℕ) (key : T) (idx_set : List ℕ)
    (dim n_sdgd_dim : ℕ) (method : String) (n_hte_vec : ℕ) :
    Option (Arr2 K) :=
  let d := if n_sdgd_dim = 0 then dim else n_sdgd_dim
  if method = "normal" then
    some ⟨n_hte_vec, d, fun i j => normal_draw key n_hte_vec d i j⟩
  else if method = "unit" then
    some ⟨n_hte_vec, d, fun i j => 2 * ((randint_draw key n_hte_vec d i j : K) - 1 / 2)⟩
  else if method = "sdgd" then
    some ⟨idx_set.length, dim, fun t j => sdgd_vec dim (idx_set.getD t 0) j⟩
  else
    none

/-- The quadratic form `v * H * v` of a `dim`-dimensional Hessian `H`:
the value produced for the probe `v` by the second-order output of
`jet.jet(fun=f_partial, primals=(data,), series=((v, zeros),))`
(hamiltonian.py lines 132-137). -/
def hvp (dim : ℕ) (H : ℕ → ℕ → K) (v : ℕ → K) : K :=
  ∑ a ∈ Finset.range dim, ∑ b ∈ Finset.range dim, v a * H a b * v b

/-- Embeds `_randomized_lapl_over_f` (hamiltonian.py lines 126-140).
`H` and `grad` are the Hessian and gradient of the opaque log-magnitude
`f(params, .)` at `data` (dimension `dim = data.shape[0]`); the function
draws `idx_set = get_sdgd_idx_set(rng, dim)` (default sample size 16),
builds probes with `get_random_vec(rng, idx_set, dim)` (defaults
`n_sdgd_dim=8`, `method="sdgd"`, `n_hte_vec=0`), takes `hvps` from the
vectorized jet expansion, and returns
`-0.5 * (mean(hvps) + sum(grad ** 2))`. -/
def randomized_lapl_over_f (normal_draw : T → ℕ → ℕ → ℕ → ℕ → K)
    (randint_draw : T → ℕ → ℕ → ℕ → ℕ → ℕ) (choice : T → ℕ → ℕ → List ℕ)
    (H : ℕ → ℕ → K) (grad : ℕ → K) (dim : ℕ) (rng : T) : K :=
  let idx_set := get_sdgd_idx_set choice rng dim 16
  let rand_sub_vec :=
    (get_random_vec normal_draw randint_draw rng idx_set dim 8 "sdgd" 0).getD
      ⟨0, 0, fun _ _ => 0⟩
  let hvps := (List.range rand_sub_vec.rows).map fun t => hvp dim H (rand_sub_vec.ent t)
  let trace_est := hvps.sum / (hvps.length : K);
  -(1 / 2) * (trace_est + ∑ i ∈ Finset.range dim, grad i ^ 2)

/-- Embeds `_forward_lapl_over_f` (hamiltonian.py lines 142-146).
`fgrad` and `flap` are `output.get(TupType.GRAD)` and
`output.get(TupType.LAP)` of the forward `LapTuple` pass of the opaque
wavefunction (an external collaborator); the returned value is
`-0.5 * lap - 0.5 * sum(grad ** 2)`.  The `rng` argument is accepted and
never read, as in the source. -/
def forward_lapl_over_f (fgrad : ℕ → K) (flap : K) (dim : ℕ) (rng : T) : K :=
  -(1 / 2) * flap - (1 / 2) * ∑ i ∈ Finset.range dim, fgrad i ^ 2

/-- Embeds `lax.fori_loop(lower, upper, body, init)`: a left fold of
`body` over the indices `lower, ..., upper - 1` carrying the running
value. -/
def fori_loop (lower upper : ℕ) (body : ℕ → K → K) (init : K) : K :=
  (List.range' lower (upper - lower)).foldl (fun val i => body i val) init

/-- Embeds `lax.scan(f, init, None, length)`: iterates the step function
from the initial carry, collecting the emitted values in order. -/
def scan_steps {σ : Type} (f : σ → Unit → σ × K) : σ → ℕ → σ × List K
  | s, 0 => (s, [])
  | s, Nat.succ m =>
    let step := f s ()
    let rest := scan_steps f step.1 m
    (rest.1, step.2 :: rest.2)

/-- Row `i` of the identity matrix `jnp.eye(n)` built by `_lapl_over_f`
(hamiltonian.py line 150). -/
def eye_row (i : ℕ) : ℕ → K := fun j => if j = i then 1 else 0

/-- Embeds `_lapl_over_f` (hamiltonian.py lines 148-164).  `primal` and
`dgrad_f` are the two outputs of
`jax.linearize(grad_f_closure, data)`: the gradient of the opaque
log-magnitude at `data` and the jvp operator of that gradient
(`n = data.shape[0]`).  With `use_scan` the diagonal entries
`dgrad_f(eye[i])[i]` are emitted by `lax.scan` and then summed; without
it they are accumulated by `lax.fori_loop`; finally
`- 0.5 * sum(primal ** 2)` is added.  The `rng` argument is accepted and
never read, as in the source. -/
def lapl_over_f (use_scan : Bool) (n : ℕ) (primal : ℕ → K)
    (dgrad_f : (ℕ → K) → ℕ → K) (rng : T) : K :=
  let result :=
    if use_scan then
      -(1 / 2) * (scan_steps (fun i _ => (i + 1, dgrad_f (eye_row i) i)) 0 n).2.sum
    else
      -(1 / 2) * fori_loop 0 n (fun i val => val + dgrad_f (eye_row i) i) 0;
  result - (1 / 2) * ∑ i ∈ Finset.range n, primal i ^ 2

/-- Embeds `potential_electron_electron` (hamiltonian.py lines 173-181):
`jnp.sum(jnp.triu(1 / r_ee[..., 0], k=1))`. -/
def potential_electron_electron {ne ce : ℕ}
    (r_ee : Fin ne → Fin ne → Fin (ce + 1) → K) : K :=
  ∑ i : Fin ne, ∑ j : Fin ne, if (i : ℕ) < (j : ℕ) then 1 / r_ee i j 0 else 0

/-- Embeds `potential_electron_nuclear` (hamiltonian.py lines 184-194):
`-jnp.sum(charges / r_ae[..., 0])` (the charge vector broadcasts along
the electron axis). -/
def potential_electron_nuclear {ne na ca : ℕ} (charges : Fin na → K)
    (r_ae : Fin ne → Fin na → Fin (ca + 1) → K) : K :=
  -∑ i, ∑ j, charges j / r_ae i j 0

/-- Embeds `potential_nuclear_nuclear` (hamiltonian.py lines 197-209):
`r_aa` is the matrix of Euclidean norms of the row differences of
`atoms`, and the result is
`jnp.sum(jnp.triu((charges[None, ...] * charges[..., None]) / r_aa, k=1))`;
entry `(i, j)` of the numerator is `charges[j] * charges[i]`. -/
def potential_nuclear_nuclear {na nd : ℕ} (sqrt : K → K) (charges : Fin na → K)
    (atoms : Fin na → Fin nd → K) : K :=
  ∑ i : Fin na, ∑ j : Fin na,
    if (i : ℕ) < (j : ℕ) then
      charges j * charges i / sqrt (∑ d : Fin nd, (atoms j d - atoms i d) ^ 2)
    else 0

/-- Embeds `potential_energy` (hamiltonian.py lines 212-230): the sum of
the three pairwise Coulomb terms. -/
def potential_energy {ne na nd ca ce : ℕ} (sqrt : K → K)
    (r_ae : Fin ne → Fin na → Fin (ca + 1) → K)
    (r_ee : Fin ne → Fin ne → Fin (ce + 1) → K)
    (atoms : Fin na → Fin nd → K) (charges : Fin na → K) : K :=
  potential_electron_electron r_ee + potential_electron_nuclear charges r_ae +
    potential_nuclear_nuclear sqrt charges atoms

/-- Numpy compatibility of two axis sizes under broadcasting: equal, or
one of them is 1. -/
def bcCompat (a b : ℕ) : Bool := a == b || a == 1 || b == 1

/-- Numpy division of a 1-D array by a 2-D array: the 1-D array is
padded to shape `(1, n)` and broadcast; incompatible trailing sizes are
a shape error (`none`). -/
def divArr12 (v : Arr1 K) (M : Arr2 K) : Option (Arr2 K) :=
  if bcCompat v.n M.cols then
    some ⟨M.rows, max v.n M.cols, fun i j => v.ent (j % v.n) / M.ent i (j % M.cols)⟩
  else none

/-- Numpy division of two 2-D arrays under broadcasting; incompatible
sizes on either axis are a shape error (`none`). -/
def divArr22 (A B : Arr2 K) : Option (Arr2 K) :=
  if bcCompat A.rows B.rows && bcCompat A.cols B.cols then
    some ⟨max A.rows B.rows, max A.cols B.cols,
      fun i j => A.ent (i % A.rows) (j % A.cols) / B.ent (i % B.rows) (j % B.cols)⟩
  else none

/-- `jnp.sum` of a 2-D array. -/
def sumArr2 (M : Arr2 K) : K :=
  ∑ i ∈ Finset.range M.rows, ∑ j ∈ Finset.range M.cols, M.ent i j

/-- `jnp.triu(M, k=1)`: zeroes every entry on or below the diagonal. -/
def triuArr2 (M : Arr2 K) : Arr2 K :=
  ⟨M.rows, M.cols, fun i j => if i < j then M.ent i j else 0⟩

/-- Elementwise reciprocal `1 / M`. -/
def recipArr2 (M : Arr2 K) : Arr2 K := ⟨M.rows, M.cols, fun i j => 1 / M.ent i j⟩

/-- `potential_electron_electron` on the leading distance channel as a
shaped numpy array (this operation cannot fail on shapes). -/
def pee_bc (r_ee0 : Arr2 K) : K := sumArr2 (triuArr2 (recipArr2 r_ee0))

/-- `potential_electron_nuclear` with explicit numpy broadcasting of
`charges / r_ae[..., 0]`: `none` models the shape error raised when the
charge count and the atom axis of `r_ae` are incompatible. -/
def pen_bc (charges : Arr1 K) (r_ae0 : Arr2 K) : Option K :=
  (divArr12 charges r_ae0).map fun M => -sumArr2 M

/-- `charges[None, ...] * charges[..., None]`: the `(n, n)` outer
product, entry `(i, j)` equal to `charges[j] * charges[i]`. -/
def outer_self (c : Arr1 K) : Arr2 K := ⟨c.n, c.n, fun i j => c.ent j * c.ent i⟩

/-- `jnp.linalg.norm(atoms[None, ...] - atoms[:, None], axis=-1)` as a
shaped array. -/
def r_aa_bc (sqrt : K → K) (atoms : Arr2 K) : Arr2 K :=
  ⟨atoms.rows, atoms.rows,
    fun i j => sqrt (∑ d ∈ Finset.range atoms.cols, (atoms.ent j d - atoms.ent i d) ^ 2)⟩

/-- `potential_nuclear_nuclear` with explicit numpy broadcasting of the
division of the `(m, m)` charge product by the `(n, n)` distance
matrix. -/
def pnn_bc (sqrt : K → K) (charges : Arr1 K) (atoms : Arr2 K) : Option K :=
  (divArr22 (outer_self charges) (r_aa_bc sqrt atoms)).map fun M =>
    sumArr2 (triuArr2 M)

/-- `potential_energy` on shaped numpy arrays with explicit broadcasting:
`none` models a shape error raised on first use by any of the three
terms. -/
def potential_energy_bc (sqrt : K → K) (r_ae0 r_ee0 : Arr2 K) (atoms : Arr2 K)
    (charges : Arr1 K) : Option K :=
  (pen_bc charges r_ae0).bind fun pen =>
    (pnn_bc sqrt charges atoms).map fun pnn => pee_bc r_ee0 + pen + pnn

/-- The stochastic trace estimate `jnp.mean(hvps)` (hamiltonian.py
line 138) for a drawn index set `S`: the mean over the sampled indices
of the jet second-order outputs for the probes `jnp.eye(dim)[i] * dim`. -/
def sdgd_trace_est_set (dim : ℕ) (H : ℕ → ℕ → K) (S : Finset ℕ) : K :=
  (∑ i ∈ S, hvp dim H (sdgd_vec dim i)) / (S.card : K)

/-- The expectation of the stochastic trace estimate over the uniform
without-replacement choice of the size-`k` index set drawn by
`get_sdgd_idx_set`: the average of `sdgd_trace_est_set` over all
`k`-element subsets of `[0, dim)`. -/
def trace_est_expect (dim k : ℕ) (H : ℕ → ℕ → K) : K :=
  (∑ S ∈ Finset.powersetCard k (Finset.range dim), sdgd_trace_est_set dim H S) /
    (Nat.choose dim k : K)

/-- Claim C2, counterexample: no setting of the two construction flags of
the factory selects the exact loop-based algorithm `_lapl_over_f` — its
`return` in `local_kinetic_energy` is commented out, so both values of
`forward_laplacian` (crossed with both values of `use_scan`) select the
forward-propagated or the stochastic algorithm. -/
theorem claim_C2_counterexample :
    local_energy_select false false ≠ KineticAlg.exactLoop ∧
    local_energy_select false true ≠ KineticAlg.exactLoop ∧
    local_energy_select true false ≠ KineticAlg.exactLoop ∧
    local_energy_select true true ≠ KineticAlg.exactLoop := by
  decide

/-- Claim C2, amended: the evaluator factory recognizes two algorithm
choices fixed at construction time — `forward_laplacian = true` (any
`use_scan`) selects the forward-propagated algorithm, which is also the
default selection, and `forward_laplacian = false` selects the stochastic
algorithm; the exact loop-based algorithm is present in the source but is
selected by no flag setting. -/
theorem claim_C2_amended :
    (∀ us : Bool, local_energy_select us true = KineticAlg.forwardLap) ∧
    (∀ us : Bool, local_energy_select us false = KineticAlg.randomizedLap) ∧
    (∀ us fl : Bool, local_energy_select us fl ≠ KineticAlg.exactLoop) ∧
    local_energy_default_select = KineticAlg.forwardLap := by
  refine ⟨fun us => rfl, fun us => rfl, ?_, rfl⟩
  decide

/-- Claim C8: `get_random_vec` returns a probe-vector array exactly for
the recognized modes `"normal"`, `"unit"` and `"sdgd"`, and reports a
configuration error (`ValueError`, modelled as `none`) for every other
mode. -/
theorem claim_C8_mode_error_iff {K : Type} [Field K] {T : Type}
    (normal_draw : T → ℕ → ℕ → ℕ → ℕ → K)
    (randint_draw : T → ℕ → ℕ → ℕ → ℕ → ℕ) (key : T) (idx_set : List ℕ)
    (dim n_sdgd_dim : ℕ) (method : String) (n_hte_vec : ℕ) :
    (get_random_vec normal_draw randint_draw key idx_set dim n_sdgd_dim
        method n_hte_vec).isSome = true ↔
      (method = "normal" ∨ method = "unit" ∨ method = "sdgd") := by
  unfold get_random_vec
  by_cases h1 : method = "normal" <;> by_cases h2 : method = "unit" <;>
    by_cases h3 : method = "sdgd" <;> simp [h1, h2, h3]

/-- Claim C6: the random token does not influence the exact loop-based
algorithm `_lapl_over_f` nor the forward-propagated algorithm
`_forward_lapl_over_f`: each returns equal results for any two token
values, all other inputs fixed. -/
theorem claim_C6_rng_irrelevant {K : Type} [Field K] {T : Type}
    (use_scan : Bool) (n : ℕ) (primal : ℕ → K) (dgrad_f : (ℕ → K) → ℕ → K)
    (fgrad : ℕ → K) (flap : K) (dim : ℕ) (rng1 rng2 : T) :
    lapl_over_f use_scan n primal dgrad_f rng1 =
        lapl_over_f use_scan n primal dgrad_f rng2 ∧
    forward_lapl_over_f fgrad flap dim rng1 =
        forward_lapl_over_f fgrad flap dim rng2 :=
  ⟨rfl, rfl⟩

/-- The values emitted by the scan embedded from `_lapl_over_f`: scanning
the step `fun i _ => (i + 1, h i)` from carry `c` for `n` steps emits
`h c, h (c+1), ..., h (c+n-1)`. -/
theorem scan_steps_snd {K : Type} [Field K] (h : ℕ → K) (c n : ℕ) :
    (scan_steps (fun i _ => (i + 1, h i)) c n).2 = (List.range' c n).map h := by
  induction n generalizing c with
  | zero => simp [scan_steps]
  | succ m ih => simp [scan_steps, List.range', ih]

/-- A left fold accumulating `h` over a list of indices equals the initial
value plus the sum of `h` over the list. -/
theorem foldl_add_eq {K : Type} [Field K] (h : ℕ → K) (l : List ℕ) (a : K) :
    l.foldl (fun val i => val + h i) a = a + (l.map h).sum := by
  induction l generalizing a with
  | nil => simp
  | cons x xs ih => simp [ih, add_assoc]

/-- Claim C4: the exact loop-based kinetic-energy algorithm returns the
same value under both iteration disciplines: `use_scan = true` (scan
emitting all diagonal entries, then a sum) and `use_scan = false`
(`fori_loop` carrying a running sum) produce identical results for every
gradient `primal`, every jvp operator `dgrad_f` and every token. -/
theorem claim_C4_scan_fori_agree {K : Type} [Field K] {T : Type} (n : ℕ)
    (primal : ℕ → K) (dgrad_f : (ℕ → K) → ℕ → K) (rng : T) :
    lapl_over_f true n primal dgrad_f rng = lapl_over_f false n primal dgrad_f rng := by
  unfold lapl_over_f fori_loop
  rw [scan_steps_snd (fun i => dgrad_f (eye_row i) i) 0 n,
    foldl_add_eq (fun i => dgrad_f (eye_row i) i) (List.range' 0 (n - 0)) 0]
  simp

/-- Claim C5: the stochastic estimator `_randomized_lapl_over_f` is
deterministic given its inputs — two calls with the same token, the same
derivative data of the wavefunction (standing for the same parameters and
configuration) and the same samplers return identical results. -/
theorem claim_C5_deterministic {K : Type} [Field K] {T : Type}
    (normal_draw : T → ℕ → ℕ → ℕ → ℕ → K)
    (randint_draw : T → ℕ → ℕ → ℕ → ℕ → ℕ) (choice : T → ℕ → ℕ → List ℕ)
    (H : ℕ → ℕ → K) (grad : ℕ → K) (dim : ℕ) (rng1 rng2 : T)
    (h : rng1 = rng2) :
    randomized_lapl_over_f normal_draw randint_draw choice H grad dim rng1 =
      randomized_lapl_over_f normal_draw randint_draw choice H grad dim rng2 := by
  rw [h]

/-- Witness for claim C5 at a concrete token value. -/
theorem claim_C5_witness :
    (3 : ℕ) = 3 ∧
    randomized_lapl_over_f (K := ℚ) (fun _ _ _ _ _ => 0) (fun _ _ _ _ _ => 0)
        (fun _ _ _ => [0]) (fun _ _ => 0) (fun _ => 0) 1 (3 : ℕ) =
      randomized_lapl_over_f (fun _ _ _ _ _ => 0) (fun _ _ _ _ _ => 0)
        (fun _ _ _ => [0]) (fun _ _ => 0) (fun _ => 0) 1 3 :=
  ⟨rfl, claim_C5_deterministic _ _ _ _ _ 1 3 3 rfl⟩

/-- Claim C10: `potential_electron_electron` depends only on the strictly
upper-triangular entries of the leading distance channel — two tensors
agreeing there (whatever their diagonal and lower-triangular entries)
produce equal outputs. -/
theorem claim_C10_upper_entries_only {K : Type} [Field K] {ne ce : ℕ}
    (r r' : Fin ne → Fin ne → Fin (ce + 1) → K)
    (h : ∀ i j : Fin ne, (i : ℕ) < (j : ℕ) → r i j 0 = r' i j 0) :
    potential_electron_electron r = potential_electron_electron r' := by
  unfold potential_electron_electron
  refine Finset.sum_congr rfl fun i _ => Finset.sum_congr rfl fun j _ => ?_
  by_cases hij : (i : ℕ) < (j : ℕ)
  · rw [if_pos hij, if_pos hij, h i j hij]
  · rw [if_neg hij, if_neg hij]

/-- Witness for claim C10: two concrete 2-electron tensors that differ on
the diagonal but agree strictly above it give equal electron-electron
potentials. -/
theorem claim_C10_witness :
    (∀ i j : Fin 2, (i : ℕ) < (j : ℕ) →
        (fun (i j : Fin 2) (_ : Fin 1) => if i = j then (0 : ℚ) else 2) i j 0 =
          (fun (_ _ : Fin 2) (_ : Fin 1) => (2 : ℚ)) i j 0) ∧
    potential_electron_electron (fun (i j : Fin 2) (_ : Fin 1) => if i = j then (0 : ℚ) else 2) =
      potential_electron_electron (fun (_ _ : Fin 2) (_ : Fin 1) => (2 : ℚ)) :=
  ⟨by decide, claim_C10_upper_entries_only _ _ (by decide)⟩

/-- A strictly upper-triangular double sum (the `jnp.triu(., k=1)` pattern
of the potential functions) rewritten as a sum over the pairs `i < j`. -/
theorem sum_triu_eq {K : Type} [Field K] {n : ℕ} (g : Fin n → Fin n → K) :
    (∑ i : Fin n, ∑ j : Fin n, if (i : ℕ) < (j : ℕ) then g i j else 0) =
      ∑ i : Fin n, ∑ j ∈ Finset.Ioi i, g i j := by
  refine Finset.sum_congr rfl fun i _ => ?_
  rw [← Finset.sum_filter]
  refine Finset.sum_congr ?_ fun j _ => rfl
  ext j
  simp only [Finset.mem_filter, Finset.mem_univ, true_and, Finset.mem_Ioi]
  exact Fin.lt_def.symm

/-- Claim C3: on positive distances and pairwise-distinct atoms,
`potential_energy` is exactly the sum of the three described Coulomb
terms — electron pairs `i < j` of `1 / r_ee[i,j,0]`, minus all
electron-atom pairs of `charges[j] / r_ae[i,j,0]`, plus atom pairs
`i < j` of `charges[i] * charges[j]` over the Euclidean interatomic
distance — with strictly upper-triangular pair enumeration. -/
theorem claim_C3_potential_energy_formula {F : Type} [LinearOrderedField F]
    {ne na nd ca ce : ℕ} (sqrt : F → F)
    (r_ae : Fin ne → Fin na → Fin (ca + 1) → F)
    (r_ee : Fin ne → Fin ne → Fin (ce + 1) → F)
    (atoms : Fin na → Fin nd → F) (charges : Fin na → F)
    (hae : ∀ i j, 0 < r_ae i j 0)
    (hee : ∀ i j, i ≠ j → 0 < r_ee i j 0)
    (hatoms : ∀ i j, i ≠ j → atoms i ≠ atoms j) :
    potential_energy sqrt r_ae r_ee atoms charges =
      (∑ i : Fin ne, ∑ j ∈ Finset.Ioi i, 1 / r_ee i j 0)
        - (∑ i : Fin ne, ∑ j : Fin na, charges j / r_ae i j 0)
        + ∑ i : Fin na, ∑ j ∈ Finset.Ioi i,
            charges i * charges j /
              sqrt (∑ d : Fin nd, (atoms i d - atoms j d) ^ 2) := by
  unfold potential_energy potential_electron_electron potential_electron_nuclear
    potential_nuclear_nuclear
  rw [sum_triu_eq, sum_triu_eq]
  have h3 : ∀ i : Fin na, ∀ j ∈ Finset.Ioi i,
      charges j * charges i / sqrt (∑ d : Fin nd, (atoms j d - atoms i d) ^ 2) =
        charges i * charges j / sqrt (∑ d : Fin nd, (atoms i d - atoms j d) ^ 2) := by
    intro i j _
    have hd : (∑ d : Fin nd, (atoms j d - atoms i d) ^ 2) =
        ∑ d : Fin nd, (atoms i d - atoms j d) ^ 2 :=
      Finset.sum_congr rfl fun d _ => by ring
    rw [hd, mul_comm]
  rw [Finset.sum_congr rfl fun i _ => Finset.sum_congr rfl (h3 i)]
  ring

/-- Witness for claim C3: one electron and one atom at unit distance,
over `ℚ` with the identity in place of the opaque square root. -/
theorem claim_C3_witness :
    (∀ i j : Fin 1, (0 : ℚ) <
        (fun (_ _ : Fin 1) (_ : Fin 1) => (1 : ℚ)) i j 0) ∧
    (∀ i j : Fin 1, i ≠ j → (0 : ℚ) <
        (fun (_ _ : Fin 1) (_ : Fin 1) => (1 : ℚ)) i j 0) ∧
    (∀ i j : Fin 1, i ≠ j →
        (fun (_ : Fin 1) (_ : Fin 3) => (0 : ℚ)) i ≠
          (fun (_ : Fin 1) (_ : Fin 3) => (0 : ℚ)) j) ∧
    potential_energy (fun q => q)
        (fun (_ _ : Fin 1) (_ : Fin 1) => (1 : ℚ))
        (fun (_ _ : Fin 1) (_ : Fin 1) => (1 : ℚ))
        (fun (_ : Fin 1) (_ : Fin 3) => (0 : ℚ)) (fun _ => (1 : ℚ)) =
      (∑ i : Fin 1, ∑ j ∈ Finset.Ioi i,
          1 / (fun (_ _ : Fin 1) (_ : Fin 1) => (1 : ℚ)) i j 0)
        - (∑ i : Fin 1, ∑ j : Fin 1,
            (fun (_ : Fin 1) => (1 : ℚ)) j /
              (fun (_ _ : Fin 1) (_ : Fin 1) => (1 : ℚ)) i j 0)
        + ∑ i : Fin 1, ∑ j ∈ Finset.Ioi i,
            (fun (_ : Fin 1) => (1 : ℚ)) i * (fun (_ : Fin 1) => (1 : ℚ)) j /
              (fun q => q)
                (∑ d : Fin 3,
                  ((fun (_ : Fin 1) (_ : Fin 3) => (0 : ℚ)) i d -
                    (fun (_ : Fin 1) (_ : Fin 3) => (0 : ℚ)) j d) ^ 2) :=
  ⟨by decide, by decide, by decide,
    claim_C3_potential_energy_formula (fun q => q)
      (fun (_ _ : Fin 1) (_ : Fin 1) => (1 : ℚ))
      (fun (_ _ : Fin 1) (_ : Fin 1) => (1 : ℚ))
      (fun (_ : Fin 1) (_ : Fin 3) => (0 : ℚ)) (fun _ => (1 : ℚ))
      (by decide) (by decide) (by decide)⟩

/-- Doubling a strictly upper-triangular double sum of a symmetric
summand gives the full off-diagonal double sum. -/
theorem two_mul_triu {K : Type} [Field K] {n : ℕ} (g : Fin n → Fin n → K)
    (hg : ∀ i j, g i j = g j i) :
    (∑ i : Fin n, ∑ j : Fin n, if (i : ℕ) < (j : ℕ) then g i j else 0) * 2 =
      ∑ i : Fin n, ∑ j : Fin n, if i ≠ j then g i j else 0 := by
  have hsplit : ∀ i j : Fin n, (if i ≠ j then g i j else 0) =
      (if (i : ℕ) < (j : ℕ) then g i j else 0) +
        (if (j : ℕ) < (i : ℕ) then g i j else 0) := by
    intro i j
    by_cases hij : i = j
    · subst hij; simp
    · have hne : (i : ℕ) ≠ (j : ℕ) := fun e => hij (Fin.ext e)
      rcases Nat.lt_or_ge (i : ℕ) (j : ℕ) with h | h
      · rw [if_pos hij, if_pos h, if_neg (not_lt.mpr h.le), add_zero]
      · have h' : (j : ℕ) < (i : ℕ) := lt_of_le_of_ne h hne.symm
        rw [if_pos hij, if_neg (not_lt.mpr h'.le), if_pos h', zero_add]
  have hswap : (∑ i : Fin n, ∑ j : Fin n, if (j : ℕ) < (i : ℕ) then g i j else 0) =
      ∑ i : Fin n, ∑ j : Fin n, if (i : ℕ) < (j : ℕ) then g i j else 0 := by
    rw [Finset.sum_comm]
    exact Finset.sum_congr rfl fun a _ => Finset.sum_congr rfl fun b _ => by rw [hg]
  have hR : (∑ i : Fin n, ∑ j : Fin n, if i ≠ j then g i j else 0) =
      (∑ i : Fin n, ∑ j : Fin n, if (i : ℕ) < (j : ℕ) then g i j else 0) +
        ∑ i : Fin n, ∑ j : Fin n, if (j : ℕ) < (i : ℕ) then g i j else 0 := by
    rw [← Finset.sum_add_distrib]
    refine Finset.sum_congr rfl fun i _ => ?_
    rw [← Finset.sum_add_distrib]
    exact Finset.sum_congr rfl fun j _ => hsplit i j
  rw [hR, hswap]
  ring

/-- The full off-diagonal double sum is invariant under relabelling both
indices by a permutation. -/
theorem offdiag_perm_invariant {K : Type} [Field K] {n : ℕ}
    (P : Equiv.Perm (Fin n)) (g : Fin n → Fin n → K) :
    (∑ i : Fin n, ∑ j : Fin n, if i ≠ j then g (P i) (P j) else 0) =
      ∑ i : Fin n, ∑ j : Fin n, if i ≠ j then g i j else 0 := by
  have step1 : ∀ i : Fin n,
      (∑ j : Fin n, if i ≠ j then g (P i) (P j) else 0) =
        ∑ j : Fin n, if P i ≠ j then g (P i) j else 0 := by
    intro i
    rw [← Equiv.sum_comp P fun j => if P i ≠ j then g (P i) j else 0]
    refine Finset.sum_congr rfl fun j _ => ?_
    by_cases h : i = j
    · subst h; simp
    · have h2 : P i ≠ P j := fun e => h (P.injective e)
      rw [if_pos h, if_pos h2]
  calc (∑ i : Fin n, ∑ j : Fin n, if i ≠ j then g (P i) (P j) else 0)
      = ∑ i : Fin n, ∑ j : Fin n, if P i ≠ j then g (P i) j else 0 :=
        Finset.sum_congr rfl fun i _ => step1 i
    _ = ∑ i : Fin n, ∑ j : Fin n, if i ≠ j then g i j else 0 :=
        Equiv.sum_comp P fun a => ∑ j : Fin n, if a ≠ j then g a j else 0

/-- Claim C7: permuting the electron indices leaves the
electron-electron potential (both axes permuted, tensor symmetric in its
leading channel) and the electron-nuclear potential (electron axis
permuted) unchanged. -/
theorem claim_C7_perm_invariance {F : Type} [Field F] [CharZero F]
    {ne na ca ce : ℕ} (P : Equiv.Perm (Fin ne))
    (r_ee : Fin ne → Fin ne → Fin (ce + 1) → F)
    (r_ae : Fin ne → Fin na → Fin (ca + 1) → F) (charges : Fin na → F)
    (hsym : ∀ i j, r_ee i j 0 = r_ee j i 0) :
    potential_electron_electron (fun i j c => r_ee (P i) (P j) c) =
        potential_electron_electron r_ee ∧
    potential_electron_nuclear charges (fun i j c => r_ae (P i) j c) =
        potential_electron_nuclear charges r_ae := by
  constructor
  · have hg : ∀ i j : Fin ne, (1 : F) / r_ee i j 0 = 1 / r_ee j i 0 :=
      fun i j => by rw [hsym]
    have hmul : potential_electron_electron (fun i j c => r_ee (P i) (P j) c) * 2 =
        potential_electron_electron r_ee * 2 := by
      simp only [potential_electron_electron]
      rw [two_mul_triu (fun i j => (1 : F) / r_ee (P i) (P j) 0)
          (fun i j => hg (P i) (P j)),
        two_mul_triu (fun i j => (1 : F) / r_ee i j 0) hg]
      exact offdiag_perm_invariant P fun i j => (1 : F) / r_ee i j 0
    exact mul_right_cancel₀ two_ne_zero hmul
  · simp only [potential_electron_nuclear]
    rw [Equiv.sum_comp P fun a => ∑ j : Fin na, charges j / r_ae a j 0]

/-- Witness for claim C7: the transposition of two electrons on a
concrete symmetric distance tensor. -/
theorem claim_C7_witness :
    (∀ i j : Fin 2,
        (fun (i j : Fin 2) (_ : Fin 1) => if i = j then (0 : ℚ) else 5) i j 0 =
          (fun (i j : Fin 2) (_ : Fin 1) => if i = j then (0 : ℚ) else 5) j i 0) ∧
    (potential_electron_electron
          (fun i j c => (fun (i j : Fin 2) (_ : Fin 1) =>
            if i = j then (0 : ℚ) else 5) (Equiv.swap 0 1 i) (Equiv.swap 0 1 j) c) =
        potential_electron_electron
          (fun (i j : Fin 2) (_ : Fin 1) => if i = j then (0 : ℚ) else 5) ∧
      potential_electron_nuclear (fun (_ : Fin 1) => (3 : ℚ))
          (fun i j c => (fun (_ : Fin 2) (_ : Fin 1) (_ : Fin 1) => (1 : ℚ))
            (Equiv.swap 0 1 i) j c) =
        potential_electron_nuclear (fun (_ : Fin 1) => (3 : ℚ))
          (fun (_ : Fin 2) (_ : Fin 1) (_ : Fin 1) => (1 : ℚ))) :=
  ⟨by decide,
    claim_C7_perm_invariance (Equiv.swap 0 1)
      (fun (i j : Fin 2) (_ : Fin 1) => if i = j then (0 : ℚ) else 5)
      (fun (_ : Fin 2) (_ : Fin 1) (_ : Fin 1) => (1 : ℚ))
      (fun (_ : Fin 1) => (3 : ℚ)) (by decide)⟩

/-- Claim C9, counterexample: one charge against two atoms (with two
electrons' worth of distance rows reduced to one electron) is a length
mismatch that the potential-energy computation accepts silently by numpy
broadcasting — no error is surfaced. -/
theorem claim_C9_counterexample :
    (potential_energy_bc (K := ℚ) (fun q => q) ⟨1, 2, fun _ _ => 1⟩
        ⟨1, 1, fun _ _ => 1⟩ ⟨2, 3, fun i _ => (i : ℚ)⟩ ⟨1, fun _ => 1⟩).isSome = true := by
  rfl

/-- Claim C9, amended: the evaluator performs no length check at
construction; at first use, a charges length and an atoms length that
differ while neither equals one make the potential-energy computation
fail with a broadcast shape error, whereas if either length is exactly
one numpy broadcasting silently coerces it and the computation succeeds
without error. -/
theorem claim_C9_amended {K : Type} [Field K] (sqrt : K → K)
    (r_ae0 r_ee0 atoms : Arr2 K) (charges : Arr1 K)
    (hcols : r_ae0.cols = atoms.rows) :
    (charges.n ≠ atoms.rows → charges.n ≠ 1 → atoms.rows ≠ 1 →
        potential_energy_bc sqrt r_ae0 r_ee0 atoms charges = none) ∧
    (charges.n = 1 →
        (potential_energy_bc sqrt r_ae0 r_ee0 atoms charges).isSome = true) ∧
    (atoms.rows = 1 →
        (potential_energy_bc sqrt r_ae0 r_ee0 atoms charges).isSome = true) := by
  refine ⟨?_, ?_, ?_⟩
  · intro hmn hm1 hn1
    have hc : bcCompat charges.n r_ae0.cols = false := by
      rw [hcols]
      simp only [bcCompat, Bool.or_eq_false_iff, beq_eq_false_iff_ne, ne_eq]
      exact ⟨⟨hmn, hm1⟩, hn1⟩
    unfold potential_energy_bc pen_bc divArr12
    rw [hc]
    rfl
  · intro h1
    have hc : bcCompat charges.n r_ae0.cols = true := by
      simp [bcCompat, h1]
    have hc2 : bcCompat charges.n atoms.rows = true := by
      simp [bcCompat, h1]
    simp [potential_energy_bc, pen_bc, pnn_bc, divArr12, divArr22, outer_self,
      r_aa_bc, hc, hc2]
  · intro h1
    have hc : bcCompat charges.n r_ae0.cols = true := by
      rw [hcols, h1]
      simp [bcCompat]
    have hc2 : bcCompat charges.n atoms.rows = true := by
      rw [h1]
      simp [bcCompat]
    simp [potential_energy_bc, pen_bc, pnn_bc, divArr12, divArr22, outer_self,
      r_aa_bc, hc, hc2]

/-- Witness for claim C9, amended: two charges against three atoms. -/
theorem claim_C9_witness :
    ((⟨1, 3, fun _ _ => (1 : ℚ)⟩ : Arr2 ℚ).cols =
        (⟨3, 3, fun _ _ => (0 : ℚ)⟩ : Arr2 ℚ).rows) ∧
    (((2 : ℕ) ≠ 3 → (2 : ℕ) ≠ 1 → (3 : ℕ) ≠ 1 →
        potential_energy_bc (K := ℚ) (fun q => q) ⟨1, 3, fun _ _ => 1⟩
          ⟨1, 1, fun _ _ => 1⟩ ⟨3, 3, fun _ _ => 0⟩ ⟨2, fun _ => 1⟩ = none) ∧
      ((2 : ℕ) = 1 →
        (potential_energy_bc (K := ℚ) (fun q => q) ⟨1, 3, fun _ _ => 1⟩
          ⟨1, 1, fun _ _ => 1⟩ ⟨3, 3, fun _ _ => 0⟩
          ⟨2, fun _ => 1⟩).isSome = true) ∧
      ((3 : ℕ) = 1 →
        (potential_energy_bc (K := ℚ) (fun q => q) ⟨1, 3, fun _ _ => 1⟩
          ⟨1, 1, fun _ _ => 1⟩ ⟨3, 3, fun _ _ => 0⟩
          ⟨2, fun _ => 1⟩).isSome = true)) :=
  ⟨rfl, claim_C9_amended (fun q => q) ⟨1, 3, fun _ _ => 1⟩ ⟨1, 1, fun _ _ => 1⟩
    ⟨3, 3, fun _ _ => 0⟩ ⟨2, fun _ => 1⟩ rfl⟩

/-- The jet second-order output for the probe `jnp.eye(dim)[i] * dim` is
`dim ^ 2` times the `i`-th diagonal Hessian entry. -/
theorem hvp_sdgd_vec {K : Type} [Field K] (dim : ℕ) (H : ℕ → ℕ → K) (i : ℕ)
    (hi : i < dim) :
    hvp dim H (sdgd_vec dim i) = (dim : K) ^ 2 * H i i := by
  unfold hvp sdgd_vec
  have hinner : ∀ a ∈ Finset.range dim,
      (∑ b ∈ Finset.range dim,
        (if a = i then (dim : K) else 0) * H a b * (if b = i then (dim : K) else 0)) =
        (if a = i then (dim : K) else 0) * H a i * (dim : K) := by
    intro a _
    rw [Finset.sum_eq_single i]
    · rw [if_pos rfl]
    · intro b _ hb
      rw [if_neg hb, mul_zero]
    · intro hni
      exact absurd (Finset.mem_range.mpr hi) hni
  rw [Finset.sum_congr rfl hinner, Finset.sum_eq_single i]
  · rw [if_pos rfl]
    ring
  · intro a _ ha
    rw [if_neg ha, zero_mul, zero_mul]
  · intro hni
    exact absurd (Finset.mem_range.mpr hi) hni

/-- The number of `k`-element subsets of `s` containing a fixed member
`i` of `s`. -/
theorem card_filter_mem_powersetCard (s : Finset ℕ) (k i : ℕ) (hi : i ∈ s)
    (hk : 0 < k) :
    ((Finset.powersetCard k s).filter fun S => i ∈ S).card =
      Nat.choose (s.card - 1) (k - 1) := by
  have h1 : (Finset.powersetCard (k - 1) (s.erase i)).card =
      Nat.choose (s.card - 1) (k - 1) := by
    rw [Finset.card_powersetCard, Finset.card_erase_of_mem hi]
  rw [← h1]
  refine Finset.card_bij' (fun S _ => S.erase i) (fun T _ => insert i T) ?_ ?_ ?_ ?_
  · intro S hS
    obtain ⟨hSP, hiS⟩ := Finset.mem_filter.mp hS
    obtain ⟨hsub, hcard⟩ := Finset.mem_powersetCard.mp hSP
    refine Finset.mem_powersetCard.mpr ⟨Finset.erase_subset_erase i hsub, ?_⟩
    rw [Finset.card_erase_of_mem hiS, hcard]
  · intro T hT
    obtain ⟨hsub, hcard⟩ := Finset.mem_powersetCard.mp hT
    have hiT : i ∉ T := fun hmem => Finset.not_mem_erase i s (hsub hmem)
    refine Finset.mem_filter.mpr
      ⟨Finset.mem_powersetCard.mpr ⟨?_, ?_⟩, Finset.mem_insert_self i T⟩
    · exact Finset.insert_subset_iff.mpr ⟨hi, hsub.trans (Finset.erase_subset i s)⟩
    · rw [Finset.card_insert_of_not_mem hiT, hcard]
      omega
  · intro S hS
    exact Finset.insert_erase (Finset.mem_filter.mp hS).2
  · intro T hT
    have hiT : i ∉ T :=
      fun hmem => Finset.not_mem_erase i s ((Finset.mem_powersetCard.mp hT).1 hmem)
    exact Finset.erase_insert hiT

/-- Double counting: summing a function over every `k`-element subset of
`s` counts each member of `s` once per subset containing it. -/
theorem sum_powersetCard_sum {K : Type} [Field K] (s : Finset ℕ) (k : ℕ)
    (f : ℕ → K) (hk : 0 < k) :
    (∑ S ∈ Finset.powersetCard k s, ∑ i ∈ S, f i) =
      (Nat.choose (s.card - 1) (k - 1) : K) * ∑ i ∈ s, f i := by
  have h1 : ∀ S ∈ Finset.powersetCard k s,
      (∑ i ∈ S, f i) = ∑ i ∈ s, if i ∈ S then f i else 0 := by
    intro S hS
    have hsub : S ⊆ s := (Finset.mem_powersetCard.mp hS).1
    rw [Finset.sum_ite_mem, Finset.inter_eq_right.mpr hsub]
  rw [Finset.sum_congr rfl h1, Finset.sum_comm]
  have h2 : ∀ i ∈ s,
      (∑ S ∈ Finset.powersetCard k s, if i ∈ S then f i else 0) =
        (Nat.choose (s.card - 1) (k - 1) : K) * f i := by
    intro i hi
    rw [← Finset.sum_filter, Finset.sum_const, nsmul_eq_mul,
      card_filter_mem_powersetCard s k i hi hk]
  rw [Finset.sum_congr rfl h2, ← Finset.mul_sum]

/-- The expectation of the code's stochastic trace estimate over the
uniform choice of a size-`k` dimension subset is `dim` times the Hessian
trace: the probes `jnp.eye(dim)[i] * dim` make each sampled second-order
coefficient `dim ^ 2 * H i i`, and averaging over the `k` sampled
indices leaves a factor `dim` rather than cancelling. -/
theorem sdgd_trace_est_expect_formula {F : Type} [Field F] [CharZero F]
    (dim k : ℕ) (H : ℕ → ℕ → F) (hk : 0 < k) (hkd : k ≤ dim) :
    trace_est_expect dim k H = (dim : F) * ∑ i ∈ Finset.range dim, H i i := by
  unfold trace_est_expect sdgd_trace_est_set
  have hhvp : ∀ S ∈ Finset.powersetCard k (Finset.range dim),
      (∑ i ∈ S, hvp dim H (sdgd_vec dim i)) / (S.card : F) =
        (∑ i ∈ S, (dim : F) ^ 2 * H i i) / (k : F) := by
    intro S hS
    obtain ⟨hsub, hcard⟩ := Finset.mem_powersetCard.mp hS
    rw [hcard]
    congr 1
    refine Finset.sum_congr rfl fun i hi => ?_
    exact hvp_sdgd_vec dim H i (Finset.mem_range.mp (hsub hi))
  rw [Finset.sum_congr rfl hhvp, ← Finset.sum_div,
    sum_powersetCard_sum (Finset.range dim) k _ hk, Finset.card_range,
    ← Finset.mul_sum]
  have hd : 0 < dim := lt_of_lt_of_le hk hkd
  have hnat : dim * Nat.choose (dim - 1) (k - 1) = Nat.choose dim k * k := by
    have h := Nat.succ_mul_choose_eq (dim - 1) (k - 1)
    have e1 : (dim - 1).succ = dim := by omega
    have e2 : (k - 1).succ = k := by omega
    rwa [e1, e2] at h
  have hCpos : 0 < Nat.choose dim k := Nat.choose_pos hkd
  have hk0 : (k : F) ≠ 0 := Nat.cast_ne_zero.mpr hk.ne'
  have hC0 : (Nat.choose dim k : F) ≠ 0 := Nat.cast_ne_zero.mpr hCpos.ne'
  have hcast : (dim : F) * (Nat.choose (dim - 1) (k - 1) : F) =
      (Nat.choose dim k : F) * (k : F) := by
    exact_mod_cast hnat
  rw [div_div, div_eq_iff (mul_ne_zero hk0 hC0)]
  linear_combination ((dim : F) * ∑ i ∈ Finset.range dim, H i i) * hcast

/-- Claim C1: the claim asserts the stochastic trace estimate is
unbiased for the Hessian trace; at the failing input `dim = 4`, sample
size `k = 1`, identity Hessian, the expectation of the code's estimate
is `16` while the Hessian trace is `4` — the estimator is biased by the
factor `dim` because the probes are scaled by `dim` instead of its
square root. -/
theorem claim_C1_estimator_bias_eval :
    trace_est_expect 4 1 (fun a b => if a = b then (1 : ℚ) else 0) = 16 ∧
    (∑ i ∈ Finset.range 4, (fun a b => if a = b then (1 : ℚ) else 0) i i) = 4 := by
  constructor
  · rw [sdgd_trace_est_expect_formula 4 1 _ (by norm_num) (by norm_num)]
    norm_num [Finset.sum_range_succ]
  · norm_num [Finset.sum_range_succ]

end LapNet
